import Mathlib

/-!
A shallow embedding of the subgraph-extraction core of
`lightrag/kg/neo4j_impl.py` (class `Neo4JStorage`): the primary bulk query
inside `get_knowledge_graph` (wildcard and non-wildcard branches), the
`_robust_fallback` depth-bounded traversal, and the point operations
`get_node` and `get_edge`, together with proofs of the specification's
testable properties.

Modelling conventions (each is a semantic fact of Cypher / the Neo4j
python driver, made explicit and deterministic):

* A store is a list of nodes and a list of edges (a multigraph); query
  result rows are generated in store (insertion) order, and `ORDER BY` is
  a stable sort on that order (Neo4j leaves tie order unspecified; the
  stable sort over store order is one deterministic refinement of it).
* `Result.single()` of the python driver (with its default `strict=False`)
  yields the first record when several are produced and `none` when the
  result is empty.
* Cypher `WITH collect(node) AS filtered_nodes, nodes, relationships`
  aggregates grouped by the carried `nodes`/`relationships` columns; the
  record obtained by `single()` is the group of the first surviving row.
* `apoc.path.subgraphAll(start, relationshipFilter: '>', maxLevel: d)`
  returns the nodes reachable from `start` by at most `d` outgoing hops
  together with all relationships between those nodes.
* Node internal ids are `Nat`; the python `f"{node.id}"` string rendering
  is injective, so results keep the `Nat` id.
* Property values: only the constant `0.0` matters to the claims, so
  numbers are carried as `Int` (`0.0` becomes `vnum 0`).
* The single-quote escaping `label.replace("'", "\\'")` composed with the
  Cypher string-literal unescaping is the identity on the label, so the
  match string is used directly.
-/

namespace Neo4jKG

/-- A Neo4j property value (floats carried as integers, see header). -/
inductive PropVal where
  | vnull : PropVal
  | vnum : Int → PropVal
  | vstr : String → PropVal
  deriving DecidableEq

/-- A stored node: internal id, label list (in store order), properties. -/
structure Node where
  id : Nat
  labels : List String
  props : List (String × PropVal)
  deriving DecidableEq

/-- A stored relationship: internal id, type, start node id, end node id,
properties. -/
structure Edge where
  id : Nat
  type : String
  src : Nat
  tgt : Nat
  props : List (String × PropVal)
  deriving DecidableEq

/-- The graph store (a labeled multigraph). -/
structure Store where
  nodes : List Node
  edges : List Edge
  deriving DecidableEq

/-- Python `str.strip('"')`: remove double quotes from both ends. -/
def stripQuotes (x : String) : String :=
  ⟨((x.toList.dropWhile (· == '"')).reverse.dropWhile (· == '"')).reverse⟩

/-- Cypher `CONTAINS`: substring containment (case-sensitive). -/
def strContains (hay needle : String) : Bool :=
  hay.toList.tails.any (needle.toList.isPrefixOf ·)

/-- Look a node up by internal id.  In Neo4j an edge endpoint always
resolves to a real node; the default is unreachable on stores arising
from an actual database. -/
def findNodeD (s : Store) (i : Nat) : Node :=
  (s.nodes.find? (fun n => n.id == i)).getD ⟨i, [], []⟩

/-- `OPTIONAL MATCH (n)-[r]-() ... count(r)`: the number of relationships
incident to the node, each counted once. -/
def degree (s : Store) (v : Nat) : Nat :=
  (s.edges.filter (fun e => e.src == v || e.tgt == v)).length

/-- `EXISTS((u)-->(v)) OR EXISTS((v)-->(u))`: direct adjacency in either
direction. -/
def adjacent (s : Store) (u v : Nat) : Bool :=
  s.edges.any (fun e => (e.src == u && e.tgt == v) || (e.src == v && e.tgt == u))

/-- The priority score of the main query's `CASE`: 2 when the collected
node is the row's seed, 1 when directly adjacent to it, 0 otherwise. -/
def priority (s : Store) (start node : Nat) : Nat :=
  if node = start then 2 else if adjacent s start node then 1 else 0

/-- Keep the first occurrence of every key (python `set`-guarded
appending, and Cypher `DISTINCT`). -/
def dedupByAux {α β : Type} [DecidableEq β] (key : α → β) :
    List α → List β → List α
  | [], _ => []
  | a :: l, seen =>
      if key a ∈ seen then dedupByAux key l seen
      else a :: dedupByAux key l (key a :: seen)

/-- Deduplicate a list by a key, keeping first occurrences. -/
def dedupBy {α β : Type} [DecidableEq β] (key : α → β) (l : List α) : List α :=
  dedupByAux key l []

/-- Outgoing neighbours (the `relationshipFilter: '>'` of the APOC call). -/
def outNbrs (s : Store) (v : Nat) : List Nat :=
  (s.edges.filter (fun e => e.src == v)).map (·.tgt)

/-- The next BFS level: outgoing neighbours of the frontier that have not
been visited, first occurrences only. -/
def nextFrontier (s : Store) (visited frontier : List Nat) : List Nat :=
  dedupBy (fun x => x)
    ((frontier.flatMap (outNbrs s)).filter (fun x => decide (x ∉ visited)))

/-- Breadth-first expansion over outgoing relationships, one level per
unit of fuel.  `visited` already contains the start node. -/
def bfsAux (s : Store) : Nat → List Nat → List Nat → List Nat
  | 0, visited, _ => visited
  | fuel + 1, visited, frontier =>
      if nextFrontier s visited frontier = [] then visited
      else bfsAux s fuel (visited ++ nextFrontier s visited frontier)
        (nextFrontier s visited frontier)

/-- `apoc.path.subgraphAll` node set: all nodes within `maxDepth` outgoing
hops of `start`, in breadth-first discovery order. -/
def subgraphNodes (s : Store) (start : Nat) (maxDepth : Nat) : List Nat :=
  bfsAux s maxDepth [start] [start]

/-- `apoc.path.subgraphAll` relationship list: all store relationships
with both endpoints among the reached nodes. -/
def subgraphRels (s : Store) (start : Nat) (maxDepth : Nat) : List Edge :=
  let sg := subgraphNodes s start maxDepth
  s.edges.filter (fun e => decide (e.src ∈ sg) && decide (e.tgt ∈ sg))

/-- Seed nodes: `WHERE any(label IN labels(n) WHERE label CONTAINS m)`. -/
def seeds (s : Store) (m : String) : List Node :=
  s.nodes.filter (fun n => n.labels.any (fun l => strContains l m))

/-- Descending lexicographic order on `(priority, degree)` pairs:
`pairGe p q` says `p` sorts no later than `q`. -/
def pairGe (p q : Nat × Nat) : Prop :=
  q.1 < p.1 ∨ (q.1 = p.1 ∧ q.2 ≤ p.2)

instance : DecidableRel pairGe := fun _ _ => instDecidableOr

/-- Sort key of a main-query row `(start, node)`. -/
def rowKey (s : Store) (r : Nat × Nat) : Nat × Nat :=
  (priority s r.1 r.2, degree s r.2)

/-- `ORDER BY priority DESC, degree DESC` as a relation on rows. -/
def rowGe (s : Store) (a b : Nat × Nat) : Prop :=
  pairGe (rowKey s a) (rowKey s b)

instance (s : Store) : DecidableRel (rowGe s) := fun _ _ => instDecidableOr

instance (s : Store) : IsTotal (Nat × Nat) (rowGe s) :=
  ⟨by intro a b; unfold rowGe pairGe; omega⟩

instance (s : Store) : IsTrans (Nat × Nat) (rowGe s) :=
  ⟨by intro a b c; unfold rowGe pairGe; omega⟩

/-- `ORDER BY degree DESC` on whole nodes (wildcard query). -/
def nodeGe (s : Store) (a b : Node) : Prop :=
  degree s b.id ≤ degree s a.id

instance (s : Store) : DecidableRel (nodeGe s) := fun _ _ => Nat.decLe _ _

instance (s : Store) : IsTotal Node (nodeGe s) :=
  ⟨by intro a b; unfold nodeGe; omega⟩

instance (s : Store) : IsTrans Node (nodeGe s) :=
  ⟨by intro a b c; unfold nodeGe; omega⟩

/-- A node of a materialised `KnowledgeGraph` result. -/
structure KGNode where
  id : Nat
  labels : List String
  props : List (String × PropVal)
  deriving DecidableEq

/-- An edge of a materialised `KnowledgeGraph` result. -/
structure KGEdge where
  id : Nat
  type : String
  source : Nat
  target : Nat
  props : List (String × PropVal)
  deriving DecidableEq

/-- The result shape of the primary extractor. -/
structure KnowledgeGraph where
  nodes : List KGNode
  edges : List KGEdge
  deriving DecidableEq

/-- Materialise a store node id into a result node
(`KnowledgeGraphNode(id=..., labels=list(node.labels), properties=dict(node))`). -/
def mkKGNode (s : Store) (i : Nat) : KGNode :=
  ⟨i, (findNodeD s i).labels, (findNodeD s i).props⟩

/-- Materialise a store relationship into a result edge. -/
def mkKGEdge (e : Edge) : KGEdge :=
  ⟨e.id, e.type, e.src, e.tgt, e.props⟩

/-- The group key implicitly introduced by
`WITH collect(node) AS filtered_nodes, nodes, relationships`: the carried
per-seed `nodes` and `relationships` columns. -/
def groupKey (s : Store) (d : Nat) (v : Nat) : List Nat × List Edge :=
  (subgraphNodes s v d, subgraphRels s v d)

/-- The rows produced by the non-wildcard main query before sorting:
one `(start, node)` pair per seed and per node of that seed's subgraph. -/
def mainRows (s : Store) (m : String) (d : Nat) : List (Nat × Nat) :=
  (seeds s m).flatMap
    (fun st => (subgraphNodes s st.id d).map (fun nid => (st.id, nid)))

/-- The rows surviving `ORDER BY priority DESC, degree DESC LIMIT K`. -/
def keptRows (s : Store) (m : String) (d K : Nat) : List (Nat × Nat) :=
  ((mainRows s m d).insertionSort (rowGe s)).take K

/-- `collect(node) AS filtered_nodes` of the record handed back by
`single()`: the node ids of the surviving rows belonging to the first
surviving row's group. -/
def primaryIds (s : Store) (m : String) (d K : Nat) : List Nat :=
  match (keptRows s m d K).head? with
  | none => []
  | some r0 =>
      ((keptRows s m d K).filter
        (fun r => decide (groupKey s d r.1 = groupKey s d r0.1))).map (·.2)

/-- `[rel IN relationships WHERE startNode(rel) IN filtered_nodes AND
endNode(rel) IN filtered_nodes]` of the same record. -/
def primaryRels (s : Store) (m : String) (d K : Nat) : List Edge :=
  match (keptRows s m d K).head? with
  | none => []
  | some r0 =>
      (groupKey s d r0.1).2.filter
        (fun e => decide (e.src ∈ primaryIds s m d K) &&
          decide (e.tgt ∈ primaryIds s m d K))

/-- The non-wildcard branch of `get_knowledge_graph`: validate that a seed
exists (otherwise return the empty result), run the main query (subgraph
expansion per seed, prioritised sort, `LIMIT max_nodes`, collect grouped
by the carried columns, edge filter), then materialise with python-side
dedup by id. -/
def get_knowledge_graph_primary (s : Store) (m : String) (d K : Nat) :
    KnowledgeGraph :=
  if (seeds s m).isEmpty then ⟨[], []⟩
  else
    ⟨(dedupBy (fun x => x) (primaryIds s m d K)).map (mkKGNode s),
      (dedupBy (·.id) (primaryRels s m d K)).map mkKGEdge⟩

/-- The nodes selected by the wildcard query:
`ORDER BY degree DESC LIMIT max_nodes`. -/
def wildcardSel (s : Store) (K : Nat) : List Node :=
  (s.nodes.insertionSort (nodeGe s)).take K

/-- The induced relationships of the wildcard query:
`MATCH (a)-[r]->(b) WHERE a IN nodes AND b IN nodes`. -/
def wildcardRels (s : Store) (K : Nat) : List Edge :=
  s.edges.filter
    (fun e => decide (e.src ∈ (wildcardSel s K).map (·.id)) &&
      decide (e.tgt ∈ (wildcardSel s K).map (·.id)))

/-- The wildcard (`*`) branch of `get_knowledge_graph`: top-degree nodes
up to the cap, then the induced directed relationships.  The final
`MATCH (a)-[r]->(b) WHERE a IN nodes AND b IN nodes` produces no row when
no induced relationship exists, so the whole record - selected nodes
included - is then empty. -/
def get_knowledge_graph_wildcard (s : Store) (K : Nat) : KnowledgeGraph :=
  if (wildcardRels s K).isEmpty then ⟨[], []⟩
  else
    ⟨(dedupBy (·.id) (wildcardSel s K)).map (fun n => ⟨n.id, n.labels, n.props⟩),
      (dedupBy (·.id) (wildcardRels s K)).map mkKGEdge⟩

/-- `get_node`: `MATCH (n:label) RETURN n` with `single()` - the first
store node carrying the (quote-stripped) label, if any. -/
def get_node (s : Store) (node_id : String) : Option Node :=
  let lbl := stripQuotes node_id
  s.nodes.find? (fun n => n.labels.contains lbl)

/-- A node of the fallback result: the python dict of node properties plus
a `labels` entry holding exactly the label under which it was visited. -/
structure FBNode where
  props : List (String × PropVal)
  labels : List String
  deriving DecidableEq

/-- An edge of the fallback result: relationship properties plus
`source`/`target` (first label of each endpoint), the type, and the
direction tag (`true` = `OUTGOING`).  `eid` is the underlying relationship
id, the first component of the key used in `visited_edges`. -/
structure FBEdge where
  eid : Nat
  props : List (String × PropVal)
  source : String
  target : String
  type : String
  direction : Bool
  deriving DecidableEq

/-- The fallback result `{"nodes": [...], "edges": [...]}`. -/
structure FBResult where
  nodes : List FBNode
  edges : List FBEdge
  deriving DecidableEq

/-- The mutable state of `_robust_fallback`: the accumulated result plus
the `visited_nodes` / `visited_edges` sets. -/
structure FBState where
  nodes : List FBNode
  edges : List FBEdge
  visitedN : List String
  visitedE : List (Nat × String)
  deriving DecidableEq

/-- First label of a node (`list(record["a"].labels)[0]`; a Neo4j node
reached through a label predicate always has at least one label). -/
def headLbl (n : Node) : String := n.labels.headD ""

/-- One row of the fallback's relationship scan
`MATCH (a)-[r]-(b) WHERE a:lbl OR b:lbl`. -/
structure ScanRow where
  e : Edge
  aNode : Node
  bNode : Node
  direction : Bool
  deriving DecidableEq

/-- The relationship-scan rows for a label: each relationship is tried in
both orientations, kept when either endpoint carries the label. -/
def scanRows (s : Store) (lbl : String) : List ScanRow :=
  s.edges.flatMap (fun e =>
    let sn := findNodeD s e.src
    let en := findNodeD s e.tgt
    ([⟨e, sn, en, true⟩, ⟨e, en, sn, false⟩] : List ScanRow).filter
      (fun r => r.aNode.labels.contains lbl || r.bNode.labels.contains lbl))

/-- Processing of one scan row inside the fallback: skip visited
relationships, otherwise record the edge and recurse into the neighbour
(`recurse` is the traversal at depth + 1). -/
def stepRow (recurse : String → FBState → FBState) (st : FBState)
    (row : ScanRow) : FBState :=
  if (row.e.id, row.e.type) ∈ st.visitedE then st
  else
    let st1 : FBState :=
      { st with
        edges := st.edges ++
          [⟨row.e.id, row.e.props, headLbl row.aNode, headLbl row.bNode,
            row.e.type, row.direction⟩],
        visitedE := (row.e.id, row.e.type) :: st.visitedE }
    recurse (if row.direction then headLbl row.bNode else headLbl row.aNode) st1

/-- The recursive `traverse` of `_robust_fallback`.  A call at depth `d`
carries fuel `maxDepth + 1 - d`, so fuel 0 is exactly the
`current_depth > max_depth` guard. -/
def traverse (s : Store) : Nat → String → FBState → FBState
  | 0, _, st => st
  | fuel + 1, lbl, st =>
      match get_node s lbl with
      | none => st
      | some nd =>
          if lbl ∈ st.visitedN then st
          else
            let st1 : FBState :=
              { st with
                visitedN := lbl :: st.visitedN,
                nodes := st.nodes ++ [⟨nd.props, [lbl]⟩] }
            (scanRows s lbl).foldl
              (stepRow (fun l st2 => traverse s fuel l st2)) st1

/-- `_robust_fallback(label, max_depth)`: run `traverse(label, 0)` on an
empty state and return the accumulated nodes and edges. -/
def robust_fallback (s : Store) (lbl : String) (maxDepth : Nat) : FBResult :=
  let st := traverse s (maxDepth + 1) lbl ⟨[], [], [], []⟩
  ⟨st.nodes, st.edges⟩

/-- The driver-level error classes relevant to `get_knowledge_graph`:
`except neo4jExceptions.ClientError` is the capability-class catch (a
missing APOC procedure raises a `ClientError`); transient and database
errors are distinct classes and are not caught there. -/
inductive NeoErr where
  | clientError : NeoErr
  | transientError : NeoErr
  | databaseError : NeoErr
  deriving DecidableEq

/-- Capability-class test: exactly the errors the
`except neo4jExceptions.ClientError` clause catches. -/
def capabilityClass (e : NeoErr) : Bool := e == NeoErr.clientError

/-- The value `get_knowledge_graph` hands back: either the primary
extractor's `KnowledgeGraph` or the fallback's dict result. -/
inductive GKGResult where
  | primary : KnowledgeGraph → GKGResult
  | fb : FBResult → GKGResult
  deriving DecidableEq

/-- `get_knowledge_graph` with outcome injection for the two store
queries of the guarded block (`valErr`: the validation query raises,
`mainErr`: the main query raises).  A raised `ClientError` - from either
query - lands in the `except` clause and is answered by the fallback;
every other error propagates to the caller. -/
def get_knowledge_graphE (s : Store) (node_label : String) (d K : Nat)
    (valErr mainErr : Option NeoErr) : Except NeoErr GKGResult :=
  let lbl := stripQuotes node_label
  if lbl = "*" then
    match mainErr with
    | some e =>
        if capabilityClass e then .ok (.fb (robust_fallback s lbl d))
        else .error e
    | none => .ok (.primary (get_knowledge_graph_wildcard s K))
  else
    match valErr with
    | some e =>
        if capabilityClass e then .ok (.fb (robust_fallback s lbl d))
        else .error e
    | none =>
        if (seeds s lbl).isEmpty then .ok (.primary ⟨[], []⟩)
        else
          match mainErr with
          | some e =>
              if capabilityClass e then .ok (.fb (robust_fallback s lbl d))
              else .error e
          | none => .ok (.primary (get_knowledge_graph_primary s lbl d K))

/-- `get_knowledge_graph` without store failures. -/
def get_knowledge_graph (s : Store) (node_label : String) (d K : Nat) :
    GKGResult :=
  let lbl := stripQuotes node_label
  if lbl = "*" then .primary (get_knowledge_graph_wildcard s K)
  else .primary (get_knowledge_graph_primary s lbl d K)

/-- `traverse` with store-error injection: `nodeErr lbl` makes the point
lookup of that label raise, `scanErr lbl` makes the relationship scan at
that label raise.  The python code wraps neither call in a `try`, so an
error unwinds the whole recursion. -/
def traverseE (s : Store) (nodeErr scanErr : String → Bool) :
    Nat → String → FBState → Except Unit FBState
  | 0, _, st => .ok st
  | fuel + 1, lbl, st =>
      if nodeErr lbl then .error ()
      else
        match get_node s lbl with
        | none => .ok st
        | some nd =>
            if lbl ∈ st.visitedN then .ok st
            else
              let st1 : FBState :=
                { st with
                  visitedN := lbl :: st.visitedN,
                  nodes := st.nodes ++ [⟨nd.props, [lbl]⟩] }
              if scanErr lbl then .error ()
              else
                (scanRows s lbl).foldlM
                  (fun st2 row =>
                    if (row.e.id, row.e.type) ∈ st2.visitedE then .ok st2
                    else
                      let st3 : FBState :=
                        { st2 with
                          edges := st2.edges ++
                            [⟨row.e.id, row.e.props, headLbl row.aNode,
                              headLbl row.bNode, row.e.type, row.direction⟩],
                          visitedE := (row.e.id, row.e.type) :: st2.visitedE }
                      traverseE s nodeErr scanErr fuel
                        (if row.direction then headLbl row.bNode
                         else headLbl row.aNode) st3)
                  st1

/-- `_robust_fallback` with store-error injection. -/
def robust_fallbackE (s : Store) (nodeErr scanErr : String → Bool)
    (lbl : String) (maxDepth : Nat) : Except Unit FBResult :=
  match traverseE s nodeErr scanErr (maxDepth + 1) lbl ⟨[], [], [], []⟩ with
  | .ok st => .ok ⟨st.nodes, st.edges⟩
  | .error e => .error e

/-- The four required edge-property keys and their defaults
(`weight: 0.0`, the rest `None`). -/
def requiredKeys : List (String × PropVal) :=
  [("weight", .vnum 0), ("source_id", .vnull),
   ("description", .vnull), ("keywords", .vnull)]

/-- The full default property mapping returned on an absent edge or on
any error. -/
def defaultEdgeProps : List (String × PropVal) :=
  [("weight", .vnum 0), ("description", .vnull),
   ("keywords", .vnull), ("source_id", .vnull)]

/-- One pass of the `for key, default_value in required_keys.items()`
loop: append each key missing from the dict (dict insertion appends). -/
def fillDefaultsAux :
    List (String × PropVal) → List (String × PropVal) → List (String × PropVal)
  | acc, [] => acc
  | acc, kv :: ks =>
      fillDefaultsAux (if (acc.lookup kv.1).isSome then acc else acc ++ [kv]) ks

/-- Fill every required key missing from an edge's property dict with its
default. -/
def fillDefaults (ps : List (String × PropVal)) : List (String × PropVal) :=
  fillDefaultsAux ps requiredKeys

/-- Does the store node with internal id `i` carry label `lbl`? -/
def nodeHasLabel (s : Store) (i : Nat) (lbl : String) : Bool :=
  (findNodeD s i).labels.contains lbl

/-- `get_edge`: find the first relationship from a node labeled `src` to a
node labeled `tgt` (`LIMIT 1` over store order) and return its properties
with the required keys defaulted; on no match or on any raised error
(`err` injects the catch-all branch) return the default mapping. -/
def get_edge (s : Store) (err : Bool) (source_node_id target_node_id : String) :
    List (String × PropVal) :=
  if err then defaultEdgeProps
  else
    let a := stripQuotes source_node_id
    let b := stripQuotes target_node_id
    match s.edges.find? (fun e => nodeHasLabel s e.src a && nodeHasLabel s e.tgt b) with
    | none => defaultEdgeProps
    | some e => fillDefaults e.props

/-! ### Concrete stores used by the counterexamples and witnesses -/

/-- The chain A → B → C (each node carries one label, edge type
`DIRECTED` as written by `upsert_edge`). -/
def chainS : Store :=
  ⟨[⟨0, ["A"], []⟩, ⟨1, ["B"], []⟩, ⟨2, ["C"], []⟩],
   [⟨0, "DIRECTED", 0, 1, []⟩, ⟨1, "DIRECTED", 1, 2, []⟩]⟩

/-- The two-node cycle A → B → A. -/
def cycS : Store :=
  ⟨[⟨0, ["A"], []⟩, ⟨1, ["B"], []⟩],
   [⟨0, "DIRECTED", 0, 1, []⟩, ⟨1, "DIRECTED", 1, 0, []⟩]⟩

/-- A single edge A → B. -/
def dangleS : Store :=
  ⟨[⟨0, ["A"], []⟩, ⟨1, ["B"], []⟩], [⟨0, "DIRECTED", 0, 1, []⟩]⟩

/-- A star: A with the three children B, C, D. -/
def starS : Store :=
  ⟨[⟨0, ["A"], []⟩, ⟨1, ["B"], []⟩, ⟨2, ["C"], []⟩, ⟨3, ["D"], []⟩],
   [⟨0, "DIRECTED", 0, 1, []⟩, ⟨1, "DIRECTED", 0, 2, []⟩,
    ⟨2, "DIRECTED", 0, 3, []⟩]⟩

/-- Four nodes with total degrees [5, 3, 3, 1] (a multigraph). -/
def degS : Store :=
  ⟨[⟨0, ["N0"], []⟩, ⟨1, ["N1"], []⟩, ⟨2, ["N2"], []⟩, ⟨3, ["N3"], []⟩],
   [⟨0, "R", 0, 1, []⟩, ⟨1, "R", 0, 1, []⟩, ⟨2, "R", 0, 2, []⟩,
    ⟨3, "R", 0, 2, []⟩, ⟨4, "R", 0, 3, []⟩, ⟨5, "R", 1, 2, []⟩]⟩

/-- A triangle over internal ids 10, 1, 2 (store order 10, 1, 2); every
node has degree 2, so any cap below 3 cuts through a tie. -/
def triS : Store :=
  ⟨[⟨10, ["X"], []⟩, ⟨1, ["Y"], []⟩, ⟨2, ["Z"], []⟩],
   [⟨0, "R", 10, 1, []⟩, ⟨1, "R", 1, 2, []⟩, ⟨2, "R", 2, 10, []⟩]⟩

/-- Two isolated nodes whose labels both contain the match string `"M"`:
two seeds whose subgraphs are distinct result groups. -/
def twoSeedS : Store :=
  ⟨[⟨0, ["MA"], []⟩, ⟨1, ["MB"], []⟩], []⟩

/-- The invariant maintained by the fallback traversal: result nodes are
keyed by pairwise-distinct singleton label lists all recorded in
`visited_nodes`; result edges have pairwise-distinct `(id, type)` keys,
all recorded in `visited_edges`, and each originates from a store
relationship. -/
def FBInv (s : Store) (st : FBState) : Prop :=
  (st.nodes.map (·.labels)).Nodup ∧
  (∀ fb ∈ st.nodes, ∃ l, fb.labels = [l] ∧ l ∈ st.visitedN) ∧
  (st.edges.map (fun e => (e.eid, e.type))).Nodup ∧
  (∀ e ∈ st.edges, (e.eid, e.type) ∈ st.visitedE) ∧
  (∀ e ∈ st.edges, ∃ se ∈ s.edges, e.eid = se.id ∧ e.type = se.type)

/-! ### Generic list lemmas -/

theorem foldl_inv {α β : Type} {P : β → Prop} (step : β → α → β) :
    ∀ l : List α, (∀ b a, a ∈ l → P b → P (step b a)) →
      ∀ b : β, P b → P (l.foldl step b) := by
  intro l
  induction l with
  | nil => intro _ b hb; simpa using hb
  | cons a t ih =>
      intro hstep b hb
      simp only [List.foldl_cons]
      exact ih (fun b2 x hx hb2 => hstep b2 x (List.mem_cons_of_mem a hx) hb2)
        (step b a) (hstep b a (List.mem_cons_self a t) hb)

theorem dedupByAux_subset {α β : Type} [DecidableEq β] (key : α → β) :
    ∀ (l : List α) (seen : List β) (a : α),
      a ∈ dedupByAux key l seen → a ∈ l := by
  intro l
  induction l with
  | nil => intro seen a h; simp [dedupByAux] at h
  | cons x t ih =>
      intro seen a h
      simp only [dedupByAux] at h
      split at h
      · exact List.mem_cons_of_mem x (ih _ a h)
      · rcases List.mem_cons.mp h with h | h
        · exact h ▸ List.mem_cons_self x t
        · exact List.mem_cons_of_mem x (ih _ a h)

theorem dedupBy_subset {α β : Type} [DecidableEq β] (key : α → β)
    (l : List α) (a : α) (h : a ∈ dedupBy key l) : a ∈ l :=
  dedupByAux_subset key l [] a h

theorem dedupByAux_keys_nodup {α β : Type} [DecidableEq β] (key : α → β) :
    ∀ (l : List α) (seen : List β),
      ((dedupByAux key l seen).map key).Nodup ∧
        ∀ b ∈ (dedupByAux key l seen).map key, b ∉ seen := by
  intro l
  induction l with
  | nil => intro seen; simp [dedupByAux]
  | cons x t ih =>
      intro seen
      simp only [dedupByAux]
      split
      · exact ih seen
      · rename_i hx
        obtain ⟨hnd, hns⟩ := ih (key x :: seen)
        refine ⟨?_, ?_⟩
        · simp only [List.map_cons, List.nodup_cons]
          exact ⟨fun hmem => (hns _ hmem) (List.mem_cons_self _ _), hnd⟩
        · intro b hb
          simp only [List.map_cons, List.mem_cons] at hb
          rcases hb with rfl | hb
          · exact hx
          · exact fun hbs => (hns b hb) (List.mem_cons_of_mem _ hbs)

theorem dedupBy_keys_nodup {α β : Type} [DecidableEq β] (key : α → β)
    (l : List α) : ((dedupBy key l).map key).Nodup :=
  (dedupByAux_keys_nodup key l []).1

theorem mem_keys_dedupByAux {α β : Type} [DecidableEq β] (key : α → β) :
    ∀ (l : List α) (seen : List β) (b : β),
      b ∈ l.map key → b ∉ seen → b ∈ (dedupByAux key l seen).map key := by
  intro l
  induction l with
  | nil => intro seen b hb _; simp at hb
  | cons x t ih =>
      intro seen b hb hbs
      simp only [List.map_cons, List.mem_cons] at hb
      simp only [dedupByAux]
      split
      · rename_i hx
        rcases hb with rfl | hb
        · exact absurd hx hbs
        · exact ih seen b hb hbs
      · rcases hb with rfl | hb
        · simp
        · by_cases hbx : b = key x
          · subst hbx; simp
          · have hnot : b ∉ key x :: seen := by
              intro h
              rcases List.mem_cons.mp h with h | h
              · exact hbx h
              · exact hbs h
            simp only [List.map_cons, List.mem_cons]
            exact Or.inr (ih _ b hb hnot)

theorem mem_dedupBy_keys {α β : Type} [DecidableEq β] (key : α → β)
    (l : List α) (b : β) (hb : b ∈ l.map key) :
    b ∈ (dedupBy key l).map key :=
  mem_keys_dedupByAux key l [] b hb (by simp)

theorem mem_dedupBy_self {α : Type} [DecidableEq α] (l : List α) (a : α)
    (ha : a ∈ l) : a ∈ dedupBy (fun x => x) l := by
  have h := mem_dedupBy_keys (fun x => x) l a (by simpa using ha)
  simpa using h

theorem dedupBy_self_nodup {α : Type} [DecidableEq α] (l : List α) :
    (dedupBy (fun x => x) l).Nodup := by
  have h := dedupBy_keys_nodup (fun x => x) l
  simpa using h

theorem dedupByAux_length_le {α β : Type} [DecidableEq β] (key : α → β) :
    ∀ (l : List α) (seen : List β),
      (dedupByAux key l seen).length ≤ l.length := by
  intro l
  induction l with
  | nil => intro seen; simp [dedupByAux]
  | cons x t ih =>
      intro seen
      simp only [dedupByAux]
      split
      · exact Nat.le_trans (ih seen) (Nat.le_succ _)
      · simpa using Nat.succ_le_succ (ih (key x :: seen))

theorem dedupBy_length_le {α β : Type} [DecidableEq β] (key : α → β)
    (l : List α) : (dedupBy key l).length ≤ l.length :=
  dedupByAux_length_le key l []

theorem countP_decide_eq_one {α : Type} [DecidableEq α] (v : α) :
    ∀ l : List α, l.Nodup → v ∈ l →
      l.countP (fun x => decide (x = v)) = 1 := by
  intro l
  induction l with
  | nil => intro _ h; simp at h
  | cons x t ih =>
      intro hnd hv
      obtain ⟨hx, hndt⟩ := List.nodup_cons.mp hnd
      rw [List.countP_cons]
      rcases List.mem_cons.mp hv with rfl | hv
      · have h0 : t.countP (fun y => decide (y = v)) = 0 :=
          List.countP_eq_zero.mpr (by
            intro a ha
            simp only [decide_eq_true_eq]
            exact fun h => hx (h ▸ ha))
        simp [h0]
      · have hxv : ¬(x = v) := fun h => hx (h ▸ hv)
        simp [ih hndt hv, hxv]

theorem mem_take_of_sorted_countP {α : Type} {r : α → α → Prop}
    {p : α → Bool} (l : List α) (hs : l.Pairwise r)
    (hmono : ∀ a b, r a b → p b = true → p a = true)
    (K : Nat) (hc : l.countP p ≤ K) :
    ∀ x ∈ l, p x = true → x ∈ l.take K := by
  intro x hx hp
  by_contra hnx
  have hsplit : l.take K ++ l.drop K = l := List.take_append_drop K l
  have hxd : x ∈ l.drop K := by
    rcases List.mem_append.mp (by rw [hsplit]; exact hx) with h | h
    · exact absurd h hnx
    · exact h
  have hKlt : K < l.length := by
    by_contra hK
    push_neg at hK
    rw [List.drop_eq_nil_of_le hK] at hxd
    simp at hxd
  have hlen : (l.take K).length = K := by
    rw [List.length_take]
    omega
  have hs2 : (l.take K ++ l.drop K).Pairwise r := by rw [hsplit]; exact hs
  have hpw := (List.pairwise_append.mp hs2).2.2
  have htk : ∀ a ∈ l.take K, p a = true :=
    fun a ha => hmono a x (hpw a ha x hxd) hp
  have hcount : l.countP p = (l.take K).countP p + (l.drop K).countP p := by
    conv_lhs => rw [← hsplit]
    exact List.countP_append ..
  have h1 : (l.take K).countP p = K := by
    rw [List.countP_eq_length.mpr htk, hlen]
  have h2 : 0 < (l.drop K).countP p := List.countP_pos_iff.mpr ⟨x, hxd, hp⟩
  omega

theorem lookup_append_some {α β : Type} [BEq α] (k : α) (v : β) :
    ∀ l1 l2 : List (α × β),
      l1.lookup k = some v → (l1 ++ l2).lookup k = some v := by
  intro l1
  induction l1 with
  | nil => intro l2 h; simp [List.lookup] at h
  | cons kv t ih =>
      intro l2 h
      rw [List.cons_append]
      rw [List.lookup] at h ⊢
      split at h
      · exact h
      · exact ih l2 h

/-! ### Lemmas about the primary extractor -/

theorem priority_le_two (s : Store) (a b : Nat) : priority s a b ≤ 2 := by
  unfold priority
  split
  · exact Nat.le_refl 2
  · split <;> omega

theorem priority_eq_two_iff (s : Store) (a b : Nat) :
    priority s a b = 2 ↔ b = a := by
  unfold priority
  by_cases h : b = a
  · simp [h]
  · rw [if_neg h]
    constructor
    · intro hc
      split at hc <;> omega
    · intro hc; exact absurd hc h

theorem rowGe_p2 (s : Store) (a b : Nat × Nat) (h : rowGe s a b)
    (hb : decide (b.2 = b.1) = true) : decide (a.2 = a.1) = true := by
  rw [decide_eq_true_eq] at hb ⊢
  have hb2 : priority s b.1 b.2 = 2 := (priority_eq_two_iff s b.1 b.2).mpr hb
  have ha2 : priority s a.1 a.2 ≤ 2 := priority_le_two s a.1 a.2
  unfold rowGe pairGe at h
  simp only [rowKey] at h
  rw [hb2] at h
  have ha : priority s a.1 a.2 = 2 := by
    rcases h with h | h
    · omega
    · omega
  exact (priority_eq_two_iff s a.1 a.2).mp ha

theorem nextFrontier_nodup (s : Store) (visited frontier : List Nat) :
    (nextFrontier s visited frontier).Nodup :=
  dedupBy_self_nodup _

theorem nextFrontier_not_visited (s : Store) (visited frontier : List Nat) :
    ∀ x ∈ nextFrontier s visited frontier, x ∉ visited := by
  intro x hx
  have hx2 := dedupBy_subset (fun y => y) _ x hx
  exact of_decide_eq_true (List.mem_filter.mp hx2).2

theorem subset_bfsAux (s : Store) :
    ∀ (fuel : Nat) (visited frontier : List Nat),
      ∀ x ∈ visited, x ∈ bfsAux s fuel visited frontier := by
  intro fuel
  induction fuel with
  | zero => intro v f x hx; simpa [bfsAux] using hx
  | succ n ih =>
      intro v f x hx
      rw [bfsAux]
      split_ifs with h
      · exact hx
      · exact ih _ _ x (List.mem_append_left _ hx)

theorem bfsAux_nodup (s : Store) :
    ∀ (fuel : Nat) (visited frontier : List Nat),
      visited.Nodup → (bfsAux s fuel visited frontier).Nodup := by
  intro fuel
  induction fuel with
  | zero => intro v f hv; simpa [bfsAux] using hv
  | succ n ih =>
      intro v f hv
      rw [bfsAux]
      split_ifs with h
      · exact hv
      · exact ih _ _ (hv.append (nextFrontier_nodup s v f)
          (fun a ha han => nextFrontier_not_visited s v f a han ha))

theorem subgraphNodes_nodup (s : Store) (v d : Nat) :
    (subgraphNodes s v d).Nodup :=
  bfsAux_nodup s d [v] [v] (by simp)

theorem start_mem_subgraphNodes (s : Store) (v d : Nat) :
    v ∈ subgraphNodes s v d :=
  subset_bfsAux s d [v] [v] v (by simp)

theorem countP_block (s : Store) (d v : Nat) :
    ((subgraphNodes s v d).map (fun nid => (v, nid))).countP
      (fun r => decide (r.2 = r.1)) = 1 := by
  rw [List.countP_map]
  have h1 : (subgraphNodes s v d).countP (fun nid => decide (nid = v)) = 1 :=
    countP_decide_eq_one v _ (subgraphNodes_nodup s v d)
      (start_mem_subgraphNodes s v d)
  simpa [Function.comp] using h1

theorem countP_mainRows (s : Store) (m : String) (d : Nat) :
    (mainRows s m d).countP (fun r => decide (r.2 = r.1)) =
      (seeds s m).length := by
  unfold mainRows
  generalize seeds s m = l
  induction l with
  | nil => simp
  | cons st t ih =>
      rw [List.flatMap_cons, List.countP_append, countP_block, ih]
      simp [Nat.add_comm]

theorem mem_mainRows_start (s : Store) (m : String) (d : Nat)
    (r : Nat × Nat) (h : r ∈ mainRows s m d) :
    ∃ st ∈ seeds s m, r.1 = st.id := by
  unfold mainRows at h
  rcases List.mem_flatMap.mp h with ⟨st, hst, hr⟩
  rcases List.mem_map.mp hr with ⟨nid, _, heq⟩
  exact ⟨st, hst, by rw [← heq]⟩

theorem seed_selfRow_mem (s : Store) (m : String) (d : Nat)
    (st : Node) (h : st ∈ seeds s m) : (st.id, st.id) ∈ mainRows s m d := by
  unfold mainRows
  exact List.mem_flatMap.mpr
    ⟨st, h, List.mem_map.mpr ⟨st.id, start_mem_subgraphNodes s st.id d, rfl⟩⟩

theorem keptRows_subset_mainRows (s : Store) (m : String) (d K : Nat)
    (r : Nat × Nat) (h : r ∈ keptRows s m d K) : r ∈ mainRows s m d := by
  unfold keptRows at h
  exact (List.perm_insertionSort (rowGe s) (mainRows s m d)).mem_iff.mp
    (List.take_subset _ _ h)

theorem seed_selfRow_mem_kept (s : Store) (m : String) (d K : Nat)
    (hK : (seeds s m).length ≤ K) (st : Node) (hst : st ∈ seeds s m) :
    (st.id, st.id) ∈ keptRows s m d K := by
  unfold keptRows
  apply mem_take_of_sorted_countP (List.insertionSort (rowGe s) (mainRows s m d))
    (List.sorted_insertionSort (rowGe s) (mainRows s m d))
    (rowGe_p2 s) K
  · rw [(List.perm_insertionSort (rowGe s) (mainRows s m d)).countP_eq,
      countP_mainRows]
    exact hK
  · exact (List.perm_insertionSort (rowGe s) (mainRows s m d)).mem_iff.mpr
      (seed_selfRow_mem s m d st hst)
  · simp

theorem primaryIds_of_const_group (s : Store) (m : String) (d K : Nat)
    (hall : ∀ r1 ∈ keptRows s m d K, ∀ r2 ∈ keptRows s m d K,
      groupKey s d r1.1 = groupKey s d r2.1) :
    primaryIds s m d K = (keptRows s m d K).map (·.2) := by
  unfold primaryIds
  cases hkl : keptRows s m d K with
  | nil => simp
  | cons a t =>
      rw [hkl] at hall
      simp only [List.head?_cons]
      congr 1
      apply List.filter_eq_self.mpr
      intro r hr
      exact decide_eq_true (hall r hr a (List.mem_cons_self a t))

theorem primaryIds_length_le (s : Store) (m : String) (d K : Nat) :
    (primaryIds s m d K).length ≤ K := by
  unfold primaryIds
  cases hkl : keptRows s m d K with
  | nil => simp
  | cons a t =>
      simp only [List.head?_cons, List.length_map]
      calc ((a :: t).filter
            (fun r => decide (groupKey s d r.1 = groupKey s d a.1))).length
          ≤ (a :: t).length := List.length_filter_le _ _
        _ ≤ K := by
            have : (a :: t).length = (keptRows s m d K).length := by rw [hkl]
            rw [this]
            unfold keptRows
            exact List.length_take_le _ _

theorem primary_nodes_eq (s : Store) (m : String) (d K : Nat) :
    (get_knowledge_graph_primary s m d K).nodes =
      (dedupBy (fun x => x) (primaryIds s m d K)).map (mkKGNode s) := by
  unfold get_knowledge_graph_primary
  split_ifs with h
  · have hs : seeds s m = [] := List.isEmpty_iff.mp h
    have hids : primaryIds s m d K = [] := by
      unfold primaryIds keptRows mainRows
      rw [hs]
      simp
    rw [hids]
    simp [dedupBy, dedupByAux]
  · rfl

theorem primary_edges_eq (s : Store) (m : String) (d K : Nat) :
    (get_knowledge_graph_primary s m d K).edges =
      (dedupBy (·.id) (primaryRels s m d K)).map mkKGEdge := by
  unfold get_knowledge_graph_primary
  split_ifs with h
  · have hs : seeds s m = [] := List.isEmpty_iff.mp h
    have hrels : primaryRels s m d K = [] := by
      unfold primaryRels keptRows mainRows
      rw [hs]
      simp
    rw [hrels]
    simp [dedupBy, dedupByAux]
  · rfl

theorem lookup_append_none {α β : Type} [BEq α] (k : α) :
    ∀ l1 l2 : List (α × β),
      l1.lookup k = none → (l1 ++ l2).lookup k = l2.lookup k := by
  intro l1
  induction l1 with
  | nil => intro l2 _; simp
  | cons kv t ih =>
      intro l2 h
      rw [List.cons_append]
      rw [List.lookup] at h ⊢
      split at h
      · exact absurd h (by simp)
      · exact ih l2 h

/-! ### Lemmas about the fallback traversal -/

theorem scanRows_edge_mem (s : Store) (lbl : String) :
    ∀ row ∈ scanRows s lbl, row.e ∈ s.edges := by
  intro row h
  unfold scanRows at h
  rcases List.mem_flatMap.mp h with ⟨e, he, hrow⟩
  have hmem := (List.mem_filter.mp hrow).1
  rcases List.mem_cons.mp hmem with rfl | h1
  · exact he
  · rcases List.mem_cons.mp h1 with rfl | h1
    · exact he
    · simp at h1

theorem FBInv_init (s : Store) : FBInv s ⟨[], [], [], []⟩ := by
  refine ⟨?_, ?_, ?_, ?_, ?_⟩ <;> simp

theorem FBInv_addNode (s : Store) (st : FBState) (nd : Node) (lbl : String)
    (hinv : FBInv s st) (hnew : lbl ∉ st.visitedN) :
    FBInv s { st with visitedN := lbl :: st.visitedN,
                      nodes := st.nodes ++ [⟨nd.props, [lbl]⟩] } := by
  obtain ⟨h1, h2, h3, h4, h5⟩ := hinv
  refine ⟨?_, ?_, h3, h4, h5⟩
  · rw [List.map_append]
    refine h1.append (by simp) ?_
    intro x hx hx2
    simp only [List.map_cons, List.map_nil, List.mem_singleton] at hx2
    rcases List.mem_map.mp hx with ⟨fb, hfb, hlab⟩
    obtain ⟨l, hl1, hl2⟩ := h2 fb hfb
    rw [← hlab, hl1] at hx2
    have : l = lbl := by
      have := List.cons.injEq l [] lbl [] ▸ hx2
      simpa using hx2
    exact hnew (this ▸ hl2)
  · intro fb hfb
    rcases List.mem_append.mp hfb with h | h
    · obtain ⟨l, hl1, hl2⟩ := h2 fb h
      exact ⟨l, hl1, List.mem_cons_of_mem _ hl2⟩
    · have : fb = ⟨nd.props, [lbl]⟩ := by simpa using h
      exact ⟨lbl, by rw [this], List.mem_cons_self _ _⟩

theorem FBInv_addEdge (s : Store) (st : FBState) (row : ScanRow)
    (hrow : row.e ∈ s.edges) (hinv : FBInv s st)
    (hnew : (row.e.id, row.e.type) ∉ st.visitedE) :
    FBInv s { st with
      edges := st.edges ++
        [⟨row.e.id, row.e.props, headLbl row.aNode, headLbl row.bNode,
          row.e.type, row.direction⟩],
      visitedE := (row.e.id, row.e.type) :: st.visitedE } := by
  obtain ⟨h1, h2, h3, h4, h5⟩ := hinv
  refine ⟨h1, h2, ?_, ?_, ?_⟩
  · rw [List.map_append]
    refine h3.append (by simp) ?_
    intro x hx hx2
    simp only [List.map_cons, List.map_nil, List.mem_singleton] at hx2
    rcases List.mem_map.mp hx with ⟨e, he, hkey⟩
    apply hnew
    rw [← hx2, ← hkey]
    exact h4 e he
  · intro e he
    rcases List.mem_append.mp he with h | h
    · exact List.mem_cons_of_mem _ (h4 e h)
    · have : e = ⟨row.e.id, row.e.props, headLbl row.aNode, headLbl row.bNode,
          row.e.type, row.direction⟩ := by simpa using h
      rw [this]
      exact List.mem_cons_self _ _
  · intro e he
    rcases List.mem_append.mp he with h | h
    · exact h5 e h
    · have : e = ⟨row.e.id, row.e.props, headLbl row.aNode, headLbl row.bNode,
          row.e.type, row.direction⟩ := by simpa using h
      exact ⟨row.e, hrow, by rw [this], by rw [this]⟩

theorem traverse_inv (s : Store) :
    ∀ (fuel : Nat) (lbl : String) (st : FBState),
      FBInv s st → FBInv s (traverse s fuel lbl st) := by
  intro fuel
  induction fuel with
  | zero => intro lbl st h; simpa [traverse] using h
  | succ f ih =>
      intro lbl st h
      rw [traverse]
      cases hg : get_node s lbl with
      | none => exact h
      | some nd =>
          split_ifs with hv
          · exact h
          · apply foldl_inv _ _ ?_ _ (FBInv_addNode s st nd lbl h hv)
            intro b row hrowmem hb
            unfold stepRow
            split_ifs with he hdir
            · exact hb
            · exact ih _ _
                (FBInv_addEdge s b row (scanRows_edge_mem s lbl row hrowmem) hb he)
            · exact ih _ _
                (FBInv_addEdge s b row (scanRows_edge_mem s lbl row hrowmem) hb he)

theorem fallback_FBInv (s : Store) (lbl : String) (d : Nat) :
    FBInv s (traverse s (d + 1) lbl ⟨[], [], [], []⟩) :=
  traverse_inv s (d + 1) lbl _ (FBInv_init s)

theorem fallback_nodes_labels_nodup (s : Store) (lbl : String) (d : Nat) :
    ((robust_fallback s lbl d).nodes.map (·.labels)).Nodup := by
  unfold robust_fallback
  exact (fallback_FBInv s lbl d).1

theorem fallback_edges_key_nodup (s : Store) (lbl : String) (d : Nat) :
    ((robust_fallback s lbl d).edges.map (fun e => (e.eid, e.type))).Nodup := by
  unfold robust_fallback
  exact (fallback_FBInv s lbl d).2.2.1

theorem fallback_edges_eid_nodup (s : Store) (lbl : String) (d : Nat)
    (hs : (s.edges.map (·.id)).Nodup) :
    ((robust_fallback s lbl d).edges.map (·.eid)).Nodup := by
  obtain ⟨_, _, h3, _, h5⟩ := fallback_FBInv s lbl d
  unfold robust_fallback
  apply List.Nodup.map_on ?_ h3.of_map
  intro x hx y hy hxy
  obtain ⟨sx, hsx, hx1, hx2⟩ := h5 x hx
  obtain ⟨sy, hsy, hy1, hy2⟩ := h5 y hy
  have hse : sx = sy :=
    List.inj_on_of_nodup_map hs hsx hsy (by rw [← hx1, ← hy1, hxy])
  have htype : x.type = y.type := by rw [hx2, hy2, hse]
  exact List.inj_on_of_nodup_map h3 hx hy (by rw [hxy, htype])

theorem map_id_mkKGNode (s : Store) (l : List Nat) :
    (l.map (mkKGNode s)).map (·.id) = l := by
  induction l with
  | nil => rfl
  | cons a t ih =>
      simp only [List.map_cons]
      rw [ih]
      rfl

theorem map_id_mkKGEdge (l : List Edge) :
    (l.map mkKGEdge).map (·.id) = l.map (·.id) := by
  rw [List.map_map]
  rfl

theorem wildcard_nodes_eq (s : Store) (K : Nat) :
    (get_knowledge_graph_wildcard s K).nodes =
      if (wildcardRels s K).isEmpty then []
      else (dedupBy (·.id) (wildcardSel s K)).map
        (fun n => ⟨n.id, n.labels, n.props⟩) := by
  unfold get_knowledge_graph_wildcard
  split_ifs <;> rfl

theorem wildcard_edges_eq (s : Store) (K : Nat) :
    (get_knowledge_graph_wildcard s K).edges =
      if (wildcardRels s K).isEmpty then []
      else (dedupBy (·.id) (wildcardRels s K)).map mkKGEdge := by
  unfold get_knowledge_graph_wildcard
  split_ifs <;> rfl

/-! ### Claim theorems -/

/-- C1: for every store and every call to `getSubgraph` - the non-wildcard
primary extractor, the wildcard extractor, and the `_robust_fallback`
traversal - the returned result contains no two nodes with the same
identifier and no two edges with the same identifier.  Fallback node
identifiers are the singleton label lists under which nodes were visited;
fallback edge identity is the `(relationship id, type)` key recorded in
`visited_edges`, and the relationship ids alone are pairwise distinct
whenever the store's relationship ids are (as Neo4j guarantees). -/
theorem c1_no_duplicate_identifiers (s : Store) (m : String) (d K : Nat)
    (lbl : String) :
    ((get_knowledge_graph_primary s m d K).nodes.map (·.id)).Nodup ∧
    ((get_knowledge_graph_primary s m d K).edges.map (·.id)).Nodup ∧
    ((get_knowledge_graph_wildcard s K).nodes.map (·.id)).Nodup ∧
    ((get_knowledge_graph_wildcard s K).edges.map (·.id)).Nodup ∧
    ((robust_fallback s lbl d).nodes.map (·.labels)).Nodup ∧
    ((robust_fallback s lbl d).edges.map (fun e => (e.eid, e.type))).Nodup ∧
    ((s.edges.map (·.id)).Nodup →
      ((robust_fallback s lbl d).edges.map (·.eid)).Nodup) := by
  refine ⟨?_, ?_, ?_, ?_, fallback_nodes_labels_nodup s lbl d,
    fallback_edges_key_nodup s lbl d, fallback_edges_eid_nodup s lbl d⟩
  · rw [primary_nodes_eq, map_id_mkKGNode]
    exact dedupBy_self_nodup _
  · rw [primary_edges_eq, map_id_mkKGEdge]
    exact dedupBy_keys_nodup _ _
  · rw [wildcard_nodes_eq]
    split_ifs with h
    · simp
    · rw [List.map_map]
      have hc : ((fun kn : KGNode => kn.id) ∘
          fun n : Node => (⟨n.id, n.labels, n.props⟩ : KGNode)) =
          fun n : Node => n.id := rfl
      rw [hc]
      exact dedupBy_keys_nodup _ _
  · rw [wildcard_edges_eq]
    split_ifs with h
    · simp
    · rw [map_id_mkKGEdge]
      exact dedupBy_keys_nodup _ _

/-- Witness for C1, instantiated on the star store: the fallback edge ids
are pairwise distinct there, with the store-side hypothesis discharged by
computation. -/
theorem c1_witness :
    ((robust_fallback starS "B" 3).edges.map (·.eid)).Nodup :=
  (c1_no_duplicate_identifiers starS "B" 3 5 "B").2.2.2.2.2.2 (by decide)

/-- Counterexample to C2 as stated: in the fallback traversal with
`max_depth = 0` on the store A → B, the edge A → B is recorded although
node B is never added, so the edge's target identifier is absent from the
returned node set. -/
theorem c2_counterexample :
    ∃ e ∈ (robust_fallback dangleS "A" 0).edges,
      ∀ fb ∈ (robust_fallback dangleS "A" 0).nodes,
        fb.labels ≠ [e.target] := by decide

/-- C2 amended: in both primary branches (non-wildcard and wildcard) every
returned edge's source and target are identifiers of returned nodes; the
fallback traversal does not guarantee this (it records incident edges
before the depth guard or a failed lookup can prune the neighbour). -/
theorem c2_amended_endpoints_in_primary (s : Store) (m : String) (d K : Nat) :
    (∀ e ∈ (get_knowledge_graph_primary s m d K).edges,
      (∃ kn ∈ (get_knowledge_graph_primary s m d K).nodes, kn.id = e.source) ∧
      (∃ kn ∈ (get_knowledge_graph_primary s m d K).nodes, kn.id = e.target)) ∧
    (∀ e ∈ (get_knowledge_graph_wildcard s K).edges,
      (∃ kn ∈ (get_knowledge_graph_wildcard s K).nodes, kn.id = e.source) ∧
      (∃ kn ∈ (get_knowledge_graph_wildcard s K).nodes, kn.id = e.target)) := by
  constructor
  · intro e he
    rw [primary_edges_eq] at he
    rcases List.mem_map.mp he with ⟨re, hre, rfl⟩
    have hre2 := dedupBy_subset _ _ _ hre
    unfold primaryRels at hre2
    cases hkl : (keptRows s m d K).head? with
    | none => rw [hkl] at hre2; simp at hre2
    | some r0 =>
        rw [hkl] at hre2
        have hcond := (List.mem_filter.mp hre2).2
        rw [Bool.and_eq_true, decide_eq_true_eq, decide_eq_true_eq] at hcond
        constructor
        · refine ⟨mkKGNode s re.src, ?_, rfl⟩
          rw [primary_nodes_eq]
          exact List.mem_map_of_mem _ (mem_dedupBy_self _ _ hcond.1)
        · refine ⟨mkKGNode s re.tgt, ?_, rfl⟩
          rw [primary_nodes_eq]
          exact List.mem_map_of_mem _ (mem_dedupBy_self _ _ hcond.2)
  · intro e he
    rw [wildcard_edges_eq] at he
    split_ifs at he with h
    · simp at he
    · rcases List.mem_map.mp he with ⟨re, hre, rfl⟩
      have hre2 := dedupBy_subset _ _ _ hre
      unfold wildcardRels at hre2
      have hcond := (List.mem_filter.mp hre2).2
      rw [Bool.and_eq_true, decide_eq_true_eq, decide_eq_true_eq] at hcond
      constructor
      · rcases List.mem_map.mp
          (mem_dedupBy_keys (·.id) (wildcardSel s K) _ hcond.1) with ⟨n, hn, hid⟩
        refine ⟨⟨n.id, n.labels, n.props⟩, ?_, hid⟩
        rw [wildcard_nodes_eq, if_neg h]
        exact List.mem_map_of_mem _ hn
      · rcases List.mem_map.mp
          (mem_dedupBy_keys (·.id) (wildcardSel s K) _ hcond.2) with ⟨n, hn, hid⟩
        refine ⟨⟨n.id, n.labels, n.props⟩, ?_, hid⟩
        rw [wildcard_nodes_eq, if_neg h]
        exact List.mem_map_of_mem _ hn

/-- Witness for the amended C2, on the chain store: the first primary edge
of the A-subgraph has its source among the returned nodes. -/
theorem c2_witness :
    ∃ kn ∈ (get_knowledge_graph_primary chainS "A" 2 1000).nodes,
      kn.id = (0 : Nat) := by
  have h := (c2_amended_endpoints_in_primary chainS "A" 2 1000).1
    ⟨0, "DIRECTED", 0, 1, []⟩ (by decide)
  exact h.1

/-- Counterexample to C3 as stated: a `getSubgraph` call answered by the
fallback traversal (main query raising a capability-class error) returns
4 nodes although the configured cap is `MAX_GRAPH_NODES = 2`; the
fallback never consults the cap. -/
theorem c3_counterexample :
    get_knowledge_graphE starS "A" 1 2 none (some NeoErr.clientError) =
      Except.ok (GKGResult.fb (robust_fallback starS "A" 1)) ∧
    (robust_fallback starS "A" 1).nodes.length = 4 := by
  constructor
  · rfl
  · decide

/-- C3 amended: both primary branches return at most `MAX_GRAPH_NODES`
nodes; the fallback traversal enforces no node cap at all. -/
theorem c3_amended_primary_cap (s : Store) (m : String) (d K : Nat) :
    (get_knowledge_graph_primary s m d K).nodes.length ≤ K ∧
    (get_knowledge_graph_wildcard s K).nodes.length ≤ K := by
  constructor
  · rw [primary_nodes_eq, List.length_map]
    exact Nat.le_trans (dedupBy_length_le _ _) (primaryIds_length_le s m d K)
  · rw [wildcard_nodes_eq]
    split_ifs with h
    · simp
    · rw [List.length_map]
      refine Nat.le_trans (dedupBy_length_le _ _) ?_
      unfold wildcardSel
      exact List.length_take_le _ _

/-- Counterexample to C4 as stated: two isolated seeds both matching "M",
cap 1000.  `|S| = 2 ≤ K`, yet only the first group's seed (id 0) is
returned: the `WITH collect(node) ..., nodes, relationships` aggregation
groups rows by the carried per-seed columns and `single()` yields one
group, so seed id 1 is dropped. -/
theorem c4_counterexample :
    (⟨1, ["MB"], []⟩ : Node) ∈ seeds twoSeedS "M" ∧
    (seeds twoSeedS "M").length ≤ 1000 ∧
    ∀ kn ∈ (get_knowledge_graph_primary twoSeedS "M" 5 1000).nodes,
      kn.id ≠ 1 := by decide

/-- C4 amended: the priority of a collected row is 2 when the node is the
row's seed, 1 when directly adjacent to it, 0 otherwise; and whenever all
seeds share one result group (in particular when there is a single seed)
and `|S| ≤ K`, every seed appears in the result even when the reachable
set exceeds the cap. -/
theorem c4_amended_seed_retention (s : Store) (m : String) (d K : Nat)
    (hK : (seeds s m).length ≤ K)
    (hg : ∀ st1 ∈ seeds s m, ∀ st2 ∈ seeds s m,
      groupKey s d st1.id = groupKey s d st2.id) :
    (∀ start node : Nat, priority s start node =
      if node = start then 2 else if adjacent s start node then 1 else 0) ∧
    ∀ st ∈ seeds s m, ∃ kn ∈ (get_knowledge_graph_primary s m d K).nodes,
      kn.id = st.id := by
  refine ⟨fun start node => rfl, ?_⟩
  intro st hst
  have hkept : (st.id, st.id) ∈ keptRows s m d K :=
    seed_selfRow_mem_kept s m d K hK st hst
  have hall : ∀ r1 ∈ keptRows s m d K, ∀ r2 ∈ keptRows s m d K,
      groupKey s d r1.1 = groupKey s d r2.1 := by
    intro r1 h1 r2 h2
    obtain ⟨s1, hs1, he1⟩ :=
      mem_mainRows_start s m d r1 (keptRows_subset_mainRows s m d K r1 h1)
    obtain ⟨s2, hs2, he2⟩ :=
      mem_mainRows_start s m d r2 (keptRows_subset_mainRows s m d K r2 h2)
    rw [he1, he2]
    exact hg s1 hs1 s2 hs2
  have hids : st.id ∈ primaryIds s m d K := by
    rw [primaryIds_of_const_group s m d K hall]
    exact List.mem_map.mpr ⟨(st.id, st.id), hkept, rfl⟩
  refine ⟨mkKGNode s st.id, ?_, rfl⟩
  rw [primary_nodes_eq]
  exact List.mem_map_of_mem _ (mem_dedupBy_self _ _ hids)

/-- Witness for the amended C4, on the cycle store: its single seed
(id 0) appears in the primary result. -/
theorem c4_witness :
    ∃ kn ∈ (get_knowledge_graph_primary cycS "A" 5 1000).nodes,
      kn.id = (⟨0, ["A"], []⟩ : Node).id :=
  (c4_amended_seed_retention cycS "A" 5 1000 (by decide) (by decide)).2
    ⟨0, ["A"], []⟩ (by decide)

/-- C5: a capability-class (`ClientError`) failure of either the
validation query or the main query - in both the wildcard and the
non-wildcard branch - is answered by the fallback traversal and never
surfaced; every other store error propagates to the caller unchanged,
without triggering the fallback. -/
theorem c5_capability_fallback_switch (s : Store) (node_label : String)
    (d K : Nat) (e : NeoErr) :
    (stripQuotes node_label ≠ "*" →
      (capabilityClass e = true →
        get_knowledge_graphE s node_label d K (some e) none =
          Except.ok (GKGResult.fb
            (robust_fallback s (stripQuotes node_label) d))) ∧
      (capabilityClass e = false →
        get_knowledge_graphE s node_label d K (some e) none =
          Except.error e) ∧
      ((seeds s (stripQuotes node_label)).isEmpty = false →
        (capabilityClass e = true →
          get_knowledge_graphE s node_label d K none (some e) =
            Except.ok (GKGResult.fb
              (robust_fallback s (stripQuotes node_label) d))) ∧
        (capabilityClass e = false →
          get_knowledge_graphE s node_label d K none (some e) =
            Except.error e))) ∧
    (stripQuotes node_label = "*" →
      (capabilityClass e = true →
        get_knowledge_graphE s node_label d K none (some e) =
          Except.ok (GKGResult.fb
            (robust_fallback s (stripQuotes node_label) d))) ∧
      (capabilityClass e = false →
        get_knowledge_graphE s node_label d K none (some e) =
          Except.error e)) := by
  constructor
  · intro hstar
    refine ⟨?_, ?_, ?_⟩
    · intro hcap
      simp [get_knowledge_graphE, hstar, hcap]
    · intro hcap
      simp [get_knowledge_graphE, hstar, hcap]
    · intro hseeds
      constructor <;> intro hcap <;>
        simp [get_knowledge_graphE, hstar, hseeds, hcap]
  · intro hstar
    constructor <;> intro hcap <;>
      simp [get_knowledge_graphE, hstar, hcap]

/-- Witness for C5: on the chain store, a capability-class failure of the
validation query for label "B" is answered by the fallback. -/
theorem c5_witness :
    get_knowledge_graphE chainS "B" 5 1000 (some NeoErr.clientError) none =
      Except.ok (GKGResult.fb (robust_fallback chainS "B" 5)) := by
  have h := c5_capability_fallback_switch chainS "B" 5 1000 NeoErr.clientError
  exact (h.1 (by decide)).1 (by decide)

/-- C6: on the chain A → B → C with seed A and depth 2, the primary
extractor and the fallback traversal both return exactly the nodes
{A, B, C} and the edges {A→B, B→C}; the label multisets agree and the
edges correspond under the id-to-label mapping (the fallback attaching a
reduced single-label list per node). -/
theorem c6_fallback_equivalence_chain :
    get_knowledge_graph_primary chainS "A" 2 1000 =
      ⟨[⟨0, ["A"], []⟩, ⟨1, ["B"], []⟩, ⟨2, ["C"], []⟩],
       [⟨0, "DIRECTED", 0, 1, []⟩, ⟨1, "DIRECTED", 1, 2, []⟩]⟩ ∧
    robust_fallback chainS "A" 2 =
      ⟨[⟨[], ["A"]⟩, ⟨[], ["B"]⟩, ⟨[], ["C"]⟩],
       [⟨0, [], "A", "B", "DIRECTED", true⟩,
        ⟨1, [], "B", "C", "DIRECTED", true⟩]⟩ ∧
    (get_knowledge_graph_primary chainS "A" 2 1000).nodes.map (·.labels) =
      (robust_fallback chainS "A" 2).nodes.map (·.labels) ∧
    (get_knowledge_graph_primary chainS "A" 2 1000).edges.map
        (fun e => ((mkKGNode chainS e.source).labels,
          (mkKGNode chainS e.target).labels)) =
      (robust_fallback chainS "A" 2).edges.map
        (fun e => ([e.source], [e.target])) := by
  refine ⟨by decide, by decide, by decide, by decide⟩

/-- Counterexample to C7 as stated: on the store A → B, a store error in
the point lookup of B (one hop into the walk) aborts the whole fallback
call with an error - the partial result (node A and the edge), which the
error-free run shows to be nonempty, is not returned. -/
theorem c7_counterexample :
    robust_fallbackE dangleS (fun l => l == "B") (fun _ => false) "A" 5 =
      Except.error () ∧
    (robust_fallback dangleS "A" 5).nodes ≠ [] := by
  constructor
  · rfl
  · decide

/-- C7 amended: `_robust_fallback` contains no error handling, so any
store error during a point lookup or relationship scan propagates and
aborts the entire call with no partial result; a branch is abandoned
silently only when a node lookup finds no node (or the node was already
visited), and the call returns an empty result when the very first
lookup finds no node. -/
theorem c7_amended_error_propagation (s : Store)
    (nodeErr scanErr : String → Bool) (lbl : String) (d : Nat) :
    (nodeErr lbl = true →
      robust_fallbackE s nodeErr scanErr lbl d = Except.error ()) ∧
    (nodeErr lbl = false → get_node s lbl = none →
      robust_fallbackE s nodeErr scanErr lbl d = Except.ok ⟨[], []⟩) ∧
    (get_node s lbl = none → robust_fallback s lbl d = ⟨[], []⟩) := by
  refine ⟨?_, ?_, ?_⟩
  · intro h
    simp [robust_fallbackE, traverseE, h]
  · intro h1 h2
    simp [robust_fallbackE, traverseE, h1, h2]
  · intro h
    simp [robust_fallback, traverse, h]

/-- Witness for the amended C7: a store error on the very first point
lookup aborts the fallback call with an error. -/
theorem c7_witness :
    robust_fallbackE cycS (fun l => l == "A") (fun _ => false) "A" 3 =
      Except.error () :=
  (c7_amended_error_propagation cycS (fun l => l == "A") (fun _ => false)
    "A" 3).1 (by decide)

/-- Counterexample to C8 as stated: on a triangle whose three nodes all
have degree 2 (ids 10, 1, 2 in store order) with cap 2, the result keeps
node 10 and drops node 2, whereas the claimed identifier-ascending
tie-break would select ids 1 and 2.  The query orders by degree only;
tie order comes from the store's result order. -/
theorem c8_counterexample :
    (∃ kn ∈ (get_knowledge_graph_wildcard triS 2).nodes, kn.id = 10) ∧
    (∀ kn ∈ (get_knowledge_graph_wildcard triS 2).nodes, kn.id ≠ 2) ∧
    degree triS 10 = degree triS 2 := by decide

/-- C8 amended: the wildcard branch returns at most `MAX_GRAPH_NODES`
nodes, every returned node's degree is at least the degree of every
unreturned store node (degree-descending selection, ties broken by the
store's result order, not by identifier), together with the induced
relationships - except that when no induced relationship exists the
whole record, selected nodes included, is empty.  With cap 3 over
degrees [5, 3, 3, 1] the three highest-degree nodes and their induced
edges are returned. -/
theorem c8_amended_wildcard_selection :
    (∀ (s : Store) (K : Nat),
      (get_knowledge_graph_wildcard s K).nodes.length ≤ K ∧
      ∀ kn ∈ (get_knowledge_graph_wildcard s K).nodes,
        ∀ n ∈ s.nodes,
          (∀ kn2 ∈ (get_knowledge_graph_wildcard s K).nodes, kn2.id ≠ n.id) →
          degree s n.id ≤ degree s kn.id) ∧
    get_knowledge_graph_wildcard degS 3 =
      ⟨[⟨0, ["N0"], []⟩, ⟨1, ["N1"], []⟩, ⟨2, ["N2"], []⟩],
       [⟨0, "R", 0, 1, []⟩, ⟨1, "R", 0, 1, []⟩, ⟨2, "R", 0, 2, []⟩,
        ⟨3, "R", 0, 2, []⟩, ⟨5, "R", 1, 2, []⟩]⟩ := by
  constructor
  · intro s K
    constructor
    · rw [wildcard_nodes_eq]
      split_ifs with h
      · simp
      · rw [List.length_map]
        refine Nat.le_trans (dedupBy_length_le _ _) ?_
        unfold wildcardSel
        exact List.length_take_le _ _
    · intro kn hkn n hn hnot
      rw [wildcard_nodes_eq] at hkn
      split_ifs at hkn with hre
      · simp at hkn
      · rcases List.mem_map.mp hkn with ⟨a, ha, rfl⟩
        have hasel : a ∈ wildcardSel s K := dedupBy_subset _ _ _ ha
        have hnsel : n ∉ wildcardSel s K := by
          intro hmem
          have hid : n.id ∈ (wildcardSel s K).map (·.id) :=
            List.mem_map_of_mem _ hmem
          rcases List.mem_map.mp
            (mem_dedupBy_keys (·.id) (wildcardSel s K) n.id hid) with
            ⟨a2, ha2, hid2⟩
          refine hnot ⟨a2.id, a2.labels, a2.props⟩ ?_ hid2
          rw [wildcard_nodes_eq, if_neg hre]
          exact List.mem_map_of_mem _ ha2
        have hsplit : wildcardSel s K ++
            (s.nodes.insertionSort (nodeGe s)).drop K =
            s.nodes.insertionSort (nodeGe s) := List.take_append_drop K _
        have hnsorted : n ∈ s.nodes.insertionSort (nodeGe s) :=
          (List.perm_insertionSort (nodeGe s) s.nodes).mem_iff.mpr hn
        have hndrop : n ∈ (s.nodes.insertionSort (nodeGe s)).drop K := by
          rcases List.mem_append.mp (by rw [hsplit]; exact hnsorted) with h | h
          · exact absurd h hnsel
          · exact h
        have hsort : (wildcardSel s K ++
            (s.nodes.insertionSort (nodeGe s)).drop K).Pairwise (nodeGe s) := by
          rw [hsplit]
          exact List.sorted_insertionSort (nodeGe s) s.nodes
        exact (List.pairwise_append.mp hsort).2.2 a hasel n hndrop
  · decide

/-- Witness for the amended C8: on the [5,3,3,1]-degree store with cap 3,
the dropped node (id 3, degree 1) has degree at most that of the kept
node id 0 (degree 5). -/
theorem c8_witness : degree degS 3 ≤ degree degS 0 := by
  have h := c8_amended_wildcard_selection.1 degS 3
  exact h.2 ⟨0, ["N0"], []⟩ (by decide) ⟨3, ["N3"], []⟩ (by decide) (by decide)

/-- C9: the fallback traversal never re-adds a visited node (its node
identifiers are pairwise distinct on every store, cyclic or not); on the
cycle A → B → A both strategies terminate with A and B exactly once and
both edges; and the depth guard stops expansion beyond `max_depth`
(at depth 0 on A → B the neighbour B is not expanded). -/
theorem c9_cycle_safety :
    (∀ (s : Store) (lbl : String) (d : Nat),
      ((robust_fallback s lbl d).nodes.map (·.labels)).Nodup) ∧
    robust_fallback cycS "A" 5 =
      ⟨[⟨[], ["A"]⟩, ⟨[], ["B"]⟩],
       [⟨0, [], "A", "B", "DIRECTED", true⟩,
        ⟨1, [], "B", "A", "DIRECTED", true⟩]⟩ ∧
    get_knowledge_graph_primary cycS "A" 5 1000 =
      ⟨[⟨0, ["A"], []⟩, ⟨1, ["B"], []⟩],
       [⟨0, "DIRECTED", 0, 1, []⟩, ⟨1, "DIRECTED", 1, 0, []⟩]⟩ ∧
    robust_fallback dangleS "A" 0 =
      ⟨[⟨[], ["A"]⟩], [⟨0, [], "A", "B", "DIRECTED", true⟩]⟩ :=
  ⟨fun s lbl d => fallback_nodes_labels_nodup s lbl d,
    by decide, by decide, by decide⟩

theorem lookup_fillDefaultsAux_preserve (k : String) (v : PropVal) :
    ∀ ks acc : List (String × PropVal), acc.lookup k = some v →
      (fillDefaultsAux acc ks).lookup k = some v := by
  intro ks
  induction ks with
  | nil => intro acc h; simpa [fillDefaultsAux] using h
  | cons kv ks ih =>
      intro acc h
      simp only [fillDefaultsAux]
      split_ifs with hs
      · exact ih acc h
      · exact ih _ (lookup_append_some k v acc [kv] h)

theorem lookup_fillDefaultsAux_fills :
    ∀ (ks acc : List (String × PropVal)) (kv : String × PropVal),
      (ks.map Prod.fst).Nodup → kv ∈ ks → acc.lookup kv.1 = none →
      (fillDefaultsAux acc ks).lookup kv.1 = some kv.2 := by
  intro ks
  induction ks with
  | nil => intro acc kv _ h _; simp at h
  | cons kv0 ks ih =>
      intro acc kv hnd hkv hnone
      rw [List.map_cons, List.nodup_cons] at hnd
      rcases List.mem_cons.mp hkv with rfl | hkv
      · simp only [fillDefaultsAux]
        have hiss : (acc.lookup kv.1).isSome = false := by rw [hnone]; rfl
        rw [if_neg (by simp [hiss])]
        apply lookup_fillDefaultsAux_preserve
        rw [lookup_append_none _ _ _ hnone]
        simp [List.lookup]
      · have hne : kv.1 ≠ kv0.1 := by
          intro h
          exact hnd.1 (h ▸ List.mem_map_of_mem Prod.fst hkv)
        have hbeq : (kv.1 == kv0.1) = false := beq_eq_false_iff_ne.mpr hne
        simp only [fillDefaultsAux]
        split_ifs with hs
        · exact ih acc kv hnd.2 hkv hnone
        · apply ih _ kv hnd.2 hkv
          rw [lookup_append_none _ _ _ hnone]
          simp [List.lookup, hbeq]

theorem lookup_fillDefaults (ps : List (String × PropVal))
    (kv : String × PropVal) (h : kv ∈ requiredKeys) :
    ((fillDefaults ps).lookup kv.1).isSome = true ∧
    (ps.lookup kv.1 = none →
      (fillDefaults ps).lookup kv.1 = some kv.2) := by
  cases hps : ps.lookup kv.1 with
  | none =>
      have hf := lookup_fillDefaultsAux_fills requiredKeys ps kv
        (by decide) h hps
      rw [fillDefaults]
      exact ⟨by rw [hf]; rfl, fun _ => hf⟩
  | some v =>
      have hf := lookup_fillDefaultsAux_preserve kv.1 v requiredKeys ps hps
      rw [fillDefaults]
      refine ⟨by rw [hf]; rfl, fun hc => ?_⟩
      exact absurd hc (by simp)

theorem get_edge_false_eq (s : Store) (a b : String) :
    get_edge s false a b =
      match s.edges.find? (fun e => nodeHasLabel s e.src (stripQuotes a) &&
          nodeHasLabel s e.tgt (stripQuotes b)) with
      | none => defaultEdgeProps
      | some e => fillDefaults e.props := rfl

/-- C10: `get_edge` is total on its error and absent branches - when no
matching edge exists or any error occurs it returns the full default
mapping (weight 0.0, description/keywords/source_id null) rather than
raising or returning `None`; and when an edge is found, every required
key missing from its properties is filled in with the same default. -/
theorem c10_get_edge_total_defaults (s : Store) (err : Bool)
    (a b : String) :
    (∀ kv ∈ requiredKeys,
      ((get_edge s err a b).lookup kv.1).isSome = true) ∧
    (err = true → get_edge s err a b = defaultEdgeProps) ∧
    (s.edges.find? (fun e => nodeHasLabel s e.src (stripQuotes a) &&
        nodeHasLabel s e.tgt (stripQuotes b)) = none →
      get_edge s false a b = defaultEdgeProps) ∧
    (∀ ed, s.edges.find? (fun e => nodeHasLabel s e.src (stripQuotes a) &&
        nodeHasLabel s e.tgt (stripQuotes b)) = some ed →
      ∀ kv ∈ requiredKeys, ed.props.lookup kv.1 = none →
        (get_edge s false a b).lookup kv.1 = some kv.2) := by
  refine ⟨?_, fun h => by subst h; rfl, ?_, ?_⟩
  · intro kv hkv
    cases err with
    | true =>
        have hdef : get_edge s true a b = defaultEdgeProps := rfl
        rw [hdef]
        fin_cases hkv <;> decide
    | false =>
        rw [get_edge_false_eq]
        cases hf : s.edges.find? (fun e => nodeHasLabel s e.src (stripQuotes a)
            && nodeHasLabel s e.tgt (stripQuotes b)) with
        | none => fin_cases hkv <;> decide
        | some ed => exact (lookup_fillDefaults ed.props kv hkv).1
  · intro hf
    rw [get_edge_false_eq, hf]
  · intro ed hf kv hkv hnone
    rw [get_edge_false_eq, hf]
    exact (lookup_fillDefaults ed.props kv hkv).2 hnone

/-- Witness for C10: on the chain store the edge A → B (whose stored
properties are empty) is returned with a present `weight` key. -/
theorem c10_witness :
    ((get_edge chainS false "A" "B").lookup "weight").isSome = true :=
  (c10_get_edge_total_defaults chainS false "A" "B").1
    ("weight", PropVal.vnum 0) (by decide)

end Neo4jKG
